import Mathlib

/-!
Verification development for the hobo_vr real-time tracking pipeline
(`virtualreality/util/utilz.py`).

The development shallowly embeds the pieces of the source the claims are
about:

* floating-point scalars are modelled by the type `F`: an exact rational
  together with the IEEE special values `nan`, `pinf` (+inf) and `ninf`
  (-inf); the arithmetic operations propagate the special values as IEEE
  arithmetic does (rounding and signed zero are not modelled — every
  division by zero in the source that the claims exercise is a division
  by an exact `+0`); `sqrt` on finite values is kept abstract as a
  parameter `sq : ℚ → ℚ`;
* the triangulation inlined in `BlobTracker.solve_blob_poses` becomes
  `solve_blob_point`; the per-channel body of the loop becomes
  `solve_blob_poses_chan`;
* `LazyKalman` becomes the structure `LK`; the pykalman numerical
  routines (`filter_update`, `em`, `filter`) are abstract parameters
  bundled in `KOps`;
* `SerialReaderMultiBinary.data_received` / `handle_packet` become
  `data_received` / `handle_packet` over byte lists (bytes are `ℕ`),
  with 32-bit floats kept as their little-endian 32-bit words;
* `BlobTracker.run` becomes the transition function `runModel`;
* `BlobTracker.get_poses` is modelled against a tiny array heap so that
  the copy-on-read behaviour is expressible.
-/

namespace HoboVR

/-! ### IEEE-style scalar values -/

/-- A floating-point scalar: an exact rational, or one of the IEEE special
values NaN, +inf, -inf.  Used to model the numpy float values flowing
through `solve_blob_poses`. -/
inductive F where
  | nan : F
  | pinf : F
  | ninf : F
  | fin : ℚ → F
deriving DecidableEq, Repr

namespace F

/-- Model of `np.isnan` on one scalar. -/
def isNan : F → Bool
  | .nan => true
  | _ => false

/-- Model of `np.isinf` on one scalar. -/
def isInf : F → Bool
  | .pinf => true
  | .ninf => true
  | _ => false

/-- IEEE addition on `F` (special values propagate as in IEEE 754). -/
def add : F → F → F
  | .nan, _ => .nan
  | _, .nan => .nan
  | .pinf, .ninf => .nan
  | .ninf, .pinf => .nan
  | .pinf, _ => .pinf
  | .ninf, _ => .ninf
  | .fin _, .pinf => .pinf
  | .fin _, .ninf => .ninf
  | .fin a, .fin b => .fin (a + b)

/-- IEEE negation on `F`. -/
def neg : F → F
  | .nan => .nan
  | .pinf => .ninf
  | .ninf => .pinf
  | .fin a => .fin (-a)

/-- IEEE subtraction on `F`. -/
def sub (a b : F) : F := a.add b.neg

/-- IEEE multiplication on `F` (`inf * 0 = nan`, sign rules for infinities). -/
def mul : F → F → F
  | .nan, _ => .nan
  | _, .nan => .nan
  | .pinf, .pinf => .pinf
  | .pinf, .ninf => .ninf
  | .ninf, .pinf => .ninf
  | .ninf, .ninf => .pinf
  | .pinf, .fin b => if 0 < b then .pinf else if b < 0 then .ninf else .nan
  | .fin a, .pinf => if 0 < a then .pinf else if a < 0 then .ninf else .nan
  | .ninf, .fin b => if 0 < b then .ninf else if b < 0 then .pinf else .nan
  | .fin a, .ninf => if 0 < a then .ninf else if a < 0 then .pinf else .nan
  | .fin a, .fin b => .fin (a * b)

/-- IEEE division on `F` (`inf/inf = nan`, `finite/inf = 0`,
`finite/0` is a signed infinity or `0/0 = nan`; signed zero is not
modelled, so the zero divisor behaves as `+0`). -/
def div : F → F → F
  | .nan, _ => .nan
  | _, .nan => .nan
  | .pinf, .pinf => .nan
  | .pinf, .ninf => .nan
  | .ninf, .pinf => .nan
  | .ninf, .ninf => .nan
  | .pinf, .fin b => if 0 ≤ b then .pinf else .ninf
  | .ninf, .fin b => if 0 ≤ b then .ninf else .pinf
  | .fin _, .pinf => .fin 0
  | .fin _, .ninf => .fin 0
  | .fin a, .fin b =>
    if b = 0 then (if 0 < a then .pinf else if a < 0 then .ninf else .nan)
    else .fin (a / b)

instance : Add F := ⟨F.add⟩
instance : Sub F := ⟨F.sub⟩
instance : Mul F := ⟨F.mul⟩
instance : Div F := ⟨F.div⟩
instance : Neg F := ⟨F.neg⟩

end F

/-- IEEE square root on `F`; on nonnegative finite values it defers to the
abstract rational square root `sq`. -/
def sqrtF (sq : ℚ → ℚ) : F → F
  | .nan => .nan
  | .pinf => .pinf
  | .ninf => .nan
  | .fin q => if q < 0 then .nan else .fin (sq q)

/-- Triple of scalars: one row of the pose table. -/
abbrev F3 := F × F × F

/-- Model of `has_nan_in_pose` (utilz.py:180-182):
`np.isnan(pose).any() or np.isinf(pose).any()` on one 3-vector. -/
def has_nan_in_pose (p : F3) : Bool :=
  (p.1.isNan || p.2.1.isNan || p.2.2.isNan) ||
  (p.1.isInf || p.2.1.isInf || p.2.2.isInf)

/-! ### Triangulation (`BlobTracker.solve_blob_poses`, utilz.py:620-647)

`solve_blob_point` is the straight-line numeric part of the per-channel
loop body, translated operation for operation (the source computes with
numpy scalars; `dtype=np.clongdouble` intermediates are modelled by their
real parts, which is all that ever reaches the `float64` pose table). -/

/-- The triangulation computed inline in `solve_blob_poses` for one blob
`(x, y, w)` (center x, center y, radius) under config `fPx` (focal length,
px), `W`/`H` (frame width/height, px), `R` (ball radius, cm). -/
def solve_blob_point (sq : ℚ → ℚ) (fPx W H R : ℚ) (x y w : ℚ) : F3 :=
  let xPx : ℚ := x - W / 2
  let yPx : ℚ := H / 2 - y
  let aPx : ℚ := w / 2
  let lPx : F := .fin (sq (xPx * xPx + yPx * yPx))
  let k : F := lPx / .fin fPx
  let j : F := (lPx + .fin aPx) / .fin fPx
  let l : F := (j - k) / (.fin 1 + j * k)
  let dCm : F := .fin R * sqrtF sq (.fin 1 + l * l) / l
  let fl : F := .fin fPx / lPx
  let zCm : F := dCm * fl / sqrtF sq (.fin 1 + fl * fl)
  let lCm : F := zCm * k
  let xCm : F := lCm * .fin xPx / lPx
  let yCm : F := lCm * .fin yPx / lPx
  (xCm / .fin 100, yCm / .fin 100, zCm / .fin 100)

/-- Modelled from the spec (section 4.2 reference formulas, steps 1-8),
for comparison with `solve_blob_point`: pure rational arithmetic with the
same abstract square root. -/
def estimate_spec (sq : ℚ → ℚ) (fPx W H R : ℚ) (x y w : ℚ) : ℚ × ℚ × ℚ :=
  let x' : ℚ := x - W / 2
  let y' : ℚ := H / 2 - y
  let l : ℚ := sq (x' * x' + y' * y')
  let a : ℚ := w / 2
  let k : ℚ := l / fPx
  let j : ℚ := (l + a) / fPx
  let t : ℚ := (j - k) / (1 + j * k)
  let distanceCm : ℚ := R * sq (1 + t * t) / t
  let zCm : ℚ := distanceCm * (fPx / l) / sq (1 + (fPx / l) * (fPx / l))
  let radialCm : ℚ := zCm * k
  let xCm : ℚ := radialCm * x' / l
  let yCm : ℚ := radialCm * y' / l
  (xCm / 100, yCm / 100, zCm / 100)

/-! ### `LazyKalman` (utilz.py:185-285)

The heavy numeric routines of pykalman (`filter_update`, `em`, `filter`)
are kept abstract: they are parameters bundled in `KOps`.  Matrices are
concrete `3 × 3` rational matrices (the source only ever stores them and
hands them to pykalman), vectors are `F3`. -/

/-- 3 × 3 matrix, modelling the numpy matrices handed to pykalman. -/
abbrev M3 := Matrix (Fin 3) (Fin 3) ℚ

/-- Model of the pykalman `KalmanFilter` object as constructed by
`LazyKalman.__init__` (utilz.py:221-225): the transition matrix, the
observation matrix, the initial state mean, plus an abstract component
`extra` for everything the em step (re-)estimates (noise covariances,
initial state covariance). -/
structure KF (EZ : Type) where
  transition : M3
  observation : M3
  initMean : F3
  extra : EZ

/-- The abstract pykalman operations used by `LazyKalman`:
`fUpdate` models `KalmanFilter.filter_update` (filter, mean, covariance,
observation ↦ new mean, new covariance), `emFit` models `KalmanFilter.em`
(observations and iteration count ↦ refit filter), `fPass` models
`KalmanFilter.filter` projected to its final mean/covariance pair
(`f_means[-1], f_covars[-1]`), and `defaultEZ` is the unestimated
`extra` of a freshly constructed filter. -/
structure KOps (EZ : Type) where
  fUpdate : KF EZ → F3 → M3 → F3 → F3 × M3
  emFit : KF EZ → List F3 → ℕ → KF EZ
  fPass : KF EZ → List F3 → F3 × M3
  defaultEZ : EZ

/-- Model of a `LazyKalman` instance's mutable state. -/
structure LK (EZ : Type) where
  filt : KF EZ
  doLearning : Bool
  countdown : ℕ
  obsBuf : List F3
  emIter : ℕ
  xNow : F3
  pNow : M3

/-- Model of `LazyKalman.__init__` (utilz.py:198-236): builds the pykalman
filter from `init_state` and the two matrices, enables learning, then runs
`calibrate(train_size, n_iter)` (so the countdown starts at `train_size`)
and zeroes `_x_now` / `_p_now`. -/
def mkLK (ops : KOps EZ) (initState : F3) (transitionM observationM : M3)
    (nIter : ℕ := 5) (trainSize : ℕ := 15) : LK EZ :=
  { filt := ⟨transitionM, observationM, initState, ops.defaultEZ⟩
    doLearning := true
    countdown := trainSize
    obsBuf := []
    emIter := nIter
    xNow := (.fin 0, .fin 0, .fin 0)
    pNow := 0 }

/-- Model of `LazyKalman.calibrate` (utilz.py:277-285): re-arms the
countdown and sets the em iteration count (the pending buffer is *not*
cleared). -/
def LK.calibrate (lk : LK EZ) (observations : ℕ := 100000)
    (emIter : ℕ := 10) : LK EZ :=
  { lk with countdown := observations, emIter := emIter }

/-- Model of `LazyKalman._run_calibration` (utilz.py:265-275): refit the
filter by em over the buffered observations, run a filter pass over the
same buffer, take its final mean/covariance as the new state, clear the
buffer. -/
def LK.runCalibration (ops : KOps EZ) (lk : LK EZ) : LK EZ :=
  let filt' := ops.emFit lk.filt lk.obsBuf lk.emIter
  let mc := ops.fPass filt' lk.obsBuf
  { lk with filt := filt', xNow := mc.1, pNow := mc.2, obsBuf := [] }

/-- Model of `LazyKalman.apply` (utilz.py:238-263).  Returns the new
state, the returned estimate (`self._x_now`), and a ghost count of
calibration refits triggered by this call (0 or 1). -/
def LK.apply (ops : KOps EZ) (lk : LK EZ) (obz : F3) : LK EZ × F3 × ℕ :=
  let xp :=
    if lk.doLearning then ops.fUpdate lk.filt lk.xNow lk.pNow obz
    else ((ops.fUpdate lk.filt lk.xNow lk.pNow obz).1, lk.pNow)
  let lk1 : LK EZ := { lk with xNow := xp.1, pNow := xp.2 }
  if lk1.countdown ≠ 0 then
    let lk2 : LK EZ := { lk1 with obsBuf := lk1.obsBuf ++ [obz],
                                  countdown := lk1.countdown - 1 }
    if lk2.countdown = 0 then
      let lk3 := LK.runCalibration ops lk2
      (lk3, lk3.xNow, 1)
    else (lk2, lk2.xNow, 0)
  else (lk1, lk1.xNow, 0)

/-- Fold `LK.apply` over a list of observations, accumulating the ghost
refit count. -/
def LK.applyList (ops : KOps EZ) (lk : LK EZ) : List F3 → LK EZ × ℕ
  | [] => (lk, 0)
  | o :: rest =>
    let r := LK.apply ops lk o
    let s := LK.applyList ops r.1 rest
    (s.1, r.2.2 + s.2)

/-! ### Per-channel tracking step (`BlobTracker.solve_blob_poses`,
utilz.py:610-657) -/

/-- One channel of `BlobTracker` state: the row of the published pose
table, and the lazily created Kalman filter (`self.kalmanFilterz[key]`). -/
structure ChanState (EZ : Type) where
  pose : F3
  filt : Option (LK EZ)

/-- A blob returned by the external detector: pixel center and radius. -/
structure Blob where
  x : ℚ
  y : ℚ
  w : ℚ

/-- The body of the `solve_blob_poses` loop for one channel, given the
detector's result for that channel.  Returns the new channel state and a
ghost field: the observation fed to the channel's Kalman filter by this
cycle, if any.  Faithful to the source order: the triangulated value is
written into the pose table first, the `has_nan_in_pose` check only
guards filter creation / update. -/
def solve_blob_poses_chan (sq : ℚ → ℚ) (ops : KOps EZ)
    (fPx W H R : ℚ) (st : ChanState EZ) (blob : Option Blob) :
    ChanState EZ × Option F3 :=
  match blob with
  | none => (st, none)
  | some b =>
    let pose' := solve_blob_point sq fPx W H R b.x b.y b.w
    if has_nan_in_pose pose' then
      ({ pose := pose', filt := st.filt }, none)
    else
      match st.filt with
      | none =>
        ({ pose := pose', filt := some (mkLK ops pose' 1 1) }, none)
      | some k =>
        let r := LK.apply ops k pose'
        ({ pose := r.2.1, filt := some r.1 }, some pose')

/-! ### `SerialReaderMultiBinary` (utilz.py:369-433)

Bytes are naturals; a 32-bit float is kept as its little-endian 32-bit
word (`struct.unpack` of 4 bytes is a bijection onto bit patterns, and
no claim depends on the float value of a pattern). -/

/-- `startsWithL pat l` : `pat` is a prefix of `l` (Python
`l[:len(pat)] == pat`). -/
def startsWithL : List ℕ → List ℕ → Bool
  | [], _ => true
  | _ :: _, [] => false
  | p :: ps, x :: xs => p = x && startsWithL ps xs

/-- Index of the first occurrence of the contiguous pattern `pat` in `l`
(Python `l.find(pat)` as used by `in` and `split`). -/
def findSub (pat : List ℕ) : List ℕ → Option ℕ
  | [] => if startsWithL pat [] then some 0 else none
  | x :: xs =>
    if startsWithL pat (x :: xs) then some 0
    else (findSub pat xs).map (· + 1)

/-- Python `pat in l` for byte strings. -/
def containsSub (pat l : List ℕ) : Bool := (findSub pat l).isSome

/-- Python `l.split(pat, 1)`: the part before the first occurrence of
`pat` and the part after it. -/
def splitFirst (pat l : List ℕ) : Option (List ℕ × List ℕ) :=
  (findSub pat l).map fun i => (l.take i, l.drop (i + pat.length))

/-- `SerialReaderMultiBinary.TERMINATOR = b'\t\r\n'` (utilz.py:379). -/
def TERM : List ℕ := [9, 13, 10]

/-- `b'hmd:'`. -/
def hmdM : List ℕ := [104, 109, 100, 58]

/-- `b'lc:'`. -/
def lcM : List ℕ := [108, 99, 58]

/-- `b'rc:'`. -/
def rcM : List ℕ := [114, 99, 58]

/-- `SerialReaderMultiBinary.HEADINGS` (utilz.py:377). -/
def HEADINGS : List (List ℕ) := [hmdM, lcM, rcM]

/-- Float count of a heading's struct format (`HEADING_FORMS`,
utilz.py:378: `4f`, `7f5?`, `7f5?`). -/
def nFloats (h : List ℕ) : ℕ := if h = hmdM then 4 else 7

/-- Bool count of a heading's struct format. -/
def nBools (h : List ℕ) : ℕ := if h = hmdM then 0 else 5

/-- `struct.calcsize` of a heading's format: 4 bytes per float plus one
byte per bool. -/
def calcsizeH (h : List ℕ) : ℕ := 4 * nFloats h + nBools h

/-- Little-endian 32-bit word from the first four bytes of a list
(missing bytes read as 0; callers always supply at least four). -/
def word32 (l : List ℕ) : ℕ :=
  l.getD 0 0 + 256 * l.getD 1 0 + 65536 * l.getD 2 0 + 16777216 * l.getD 3 0

/-- The `n` consecutive little-endian 32-bit words at the front of `l`
(the float section of `struct.unpack_from`). -/
def unpackWords : ℕ → List ℕ → List ℕ
  | 0, _ => []
  | n + 1, l => word32 l :: unpackWords n (l.drop 4)

/-- A decoded packet as stored in `_last_packet`: the heading plus the
unpacked fields (`(h, struct.unpack_from(form, packet_section))`), with
floats kept as 32-bit words, then the bool fields. -/
structure Packet where
  header : List ℕ
  floats : List ℕ
  flags : List Bool
deriving DecidableEq, Repr

/-- `struct.unpack_from(form, section)` for a heading's format: first the
floats (4 bytes each, little-endian), then the bools (one byte each,
nonzero = `True`). -/
def unpackForm (h : List ℕ) (section_ : List ℕ) : Packet :=
  { header := h
    floats := unpackWords (nFloats h) section_
    flags := ((section_.drop (4 * nFloats h)).take (nBools h)).map (0 < ·) }

/-- The reader's state: the frame buffer, the single `_last_packet` slot,
and a ghost trail of every packet successfully decoded (appended in
decode order), used to state how many decodes a frame causes. -/
structure RState where
  buffer : List ℕ
  lastPacket : Option Packet
  decoded : List Packet
deriving Repr

/-- A fresh reader (`__init__`, utilz.py:383-388): empty buffer, no
packet yet. -/
def initR : RState := ⟨[], none, []⟩

/-- Model of `SerialReaderMultiBinary.handle_packet` (utilz.py:415-433):
look up the heading's format, truncate the data to `struct.calcsize` of
it, drop the frame if the truncation is short, else unpack and overwrite
the single `_last_packet` slot. -/
def handle_packet (st : RState) (header data : List ℕ) : RState :=
  if header ∈ HEADINGS then
    let check := calcsizeH header
    let section_ := data.take check
    if section_.length ≠ check then st
    else
      let q := unpackForm header section_
      { st with lastPacket := some q, decoded := st.decoded ++ [q] }
  else st

/-- The decode a single heading contributes to a frame, as a pure value:
`none` when the heading is absent or its truncated payload is short. -/
def decodeAt (h pkt : List ℕ) : Option Packet :=
  match splitFirst h pkt with
  | none => none
  | some pr =>
    let check := calcsizeH h
    let section_ := pr.2.take check
    if section_.length ≠ check then none else some (unpackForm h section_)

/-- The heading loop of `data_received` (utilz.py:410-413) applied to one
terminator-delimited frame: for each heading in `HEADINGS` order, if it
occurs in the frame, split at its first occurrence and handle the part
after it.  Note the source loop has no `break`. -/
def procFrame (st : RState) (pkt : List ℕ) : RState :=
  HEADINGS.foldl
    (fun s h =>
      match splitFirst h pkt with
      | some pr => handle_packet s h pr.2
      | none => s)
    st

/-- Fuel-driven splitting of the buffer at terminator occurrences,
yielding the complete frames in order and the leftover buffer.  The fuel
only needs to cover the number of frames; each step removes at least the
three terminator bytes. -/
def framesOfAux : ℕ → List ℕ → List (List ℕ) × List ℕ
  | 0, buf => ([], buf)
  | fuel + 1, buf =>
    match splitFirst TERM buf with
    | none => ([], buf)
    | some pr =>
      let r := framesOfAux fuel pr.2
      (pr.1 :: r.1, r.2)

/-- All complete frames currently in the buffer, and the leftover. -/
def framesOf (buf : List ℕ) : List (List ℕ) × List ℕ :=
  framesOfAux buf.length buf

/-- Model of `SerialReaderMultiBinary.data_received` (utilz.py:405-413):
extend the buffer, then repeatedly split off a terminator-delimited frame
and run the heading loop on it. -/
def data_received (st : RState) (data : List ℕ) : RState :=
  let buf := st.buffer ++ data
  let fr := framesOf buf
  { (fr.1.foldl procFrame { st with buffer := buf }) with buffer := fr.2 }

/-! ### `BlobTracker.run` lifecycle (utilz.py:574-604)

The frame source is abstracted to a schedule of outcomes: whether
`at_start`'s first `_try_get_frame` succeeds, whether the second
`_try_get_frame` at the top of `run` succeeds, and one outcome per loop
iteration.  Exceptions escaping `run` are the `Except.error` case. -/

/-- The two flags of the worker that the lifecycle touches. -/
structure RunState where
  alive : Bool
  canTrack : Bool
deriving DecidableEq, Repr

/-- Outcome of one iteration of the `while self.alive and self.can_track`
loop: the acquisition succeeded and `solve_blob_poses` ran cleanly
(`ok`); something in the body raised (`bodyRaise`, caught by the inner
`except`, which breaks); the acquisition returned `can_track = False`
(`acqFail`, which breaks at the `if not self.can_track` check or via the
body raising on the `None` frame); or an external `stop()` flipped
`alive` before this iteration (`stopped`). -/
inductive LoopEvt where
  | ok : LoopEvt
  | bodyRaise : LoopEvt
  | acqFail : LoopEvt
  | stopped : LoopEvt

/-- The `while` loop of `run` followed by the trailing
`self.alive = False; self.can_track = False` lines.  `none` means the
schedule ran out while the loop would still continue. -/
def runLoop : RunState → List LoopEvt → Option (Except RunState RunState)
  | s, [] =>
    if s.alive && s.canTrack then none else some (Except.ok ⟨false, false⟩)
  | s, e :: rest =>
    if s.alive && s.canTrack then
      match e with
      | .ok => runLoop ⟨s.alive, true⟩ rest
      | .bodyRaise => some (Except.ok ⟨false, false⟩)
      | .acqFail => some (Except.ok ⟨false, false⟩)
      | .stopped => runLoop ⟨false, s.canTrack⟩ rest
    else some (Except.ok ⟨false, false⟩)

/-- Model of `BlobTracker.run` (utilz.py:574-604).  `self.alive` is
`True` on entry (set by `__init__`).  `at_start` (utilz.py:533-544) is
called before the `try` block: when its frame poll fails it sets
`can_track = False` and raises, so the exception escapes `run` with
`alive` untouched (the `Except.error` case).  The second
`_try_get_frame` failure is caught by the `try` and sets
`alive = False` before returning. -/
def runModel (startOk secondOk : Bool) (evts : List LoopEvt) :
    Option (Except RunState RunState) :=
  if !startOk then some (Except.error ⟨true, false⟩)
  else if !secondOk then some (Except.ok ⟨false, false⟩)
  else runLoop ⟨true, true⟩ evts

/-- The liveness flag after `run` has terminated, by either path. -/
def aliveAfter : Except RunState RunState → Bool
  | .ok s => s.alive
  | .error s => s.alive

/-! ### `BlobTracker.get_poses` against an array heap (utilz.py:606-608)

Aliasing is not expressible over pure values, so the pose table lives in
a tiny heap of numpy arrays: a reference is an index, `get_poses`
allocates a fresh array holding a copy of the table
(`self.poses.copy()`). -/

/-- A heap of allocated arrays of pose rows; a reference is an index into
the allocation list. -/
structure Heap where
  arrs : List (List F3)

/-- Allocate a new array, returning its reference. -/
def allocH (h : Heap) (xs : List F3) : ℕ × Heap :=
  (h.arrs.length, ⟨h.arrs ++ [xs]⟩)

/-- Read a whole array. -/
def readH (h : Heap) (r : ℕ) : List F3 := h.arrs.getD r []

/-- Overwrite row `i` of the array at `r` (an external mutation of a
returned array). -/
def writeH (h : Heap) (r : ℕ) (i : ℕ) (v : F3) : Heap :=
  ⟨h.arrs.set r ((h.arrs.getD r []).set i v)⟩

/-- The tracker's handle on its live pose table. -/
structure TrackerRef where
  posesRef : ℕ

/-- Model of `BlobTracker.get_poses`: `return self.poses.copy()` — a
fresh allocation holding the current contents of the live table. -/
def get_poses (t : TrackerRef) (h : Heap) : ℕ × Heap :=
  allocH h (readH h t.posesRef)

/-! ### Remaining definitions: decode views, encoders, concrete ops -/

/-- A trivial instantiation of the abstract pykalman operations, used to
evaluate the model on concrete inputs. -/
def trivOps : KOps Unit :=
  { fUpdate := fun _ x p _ => (x, p)
    emFit := fun k _ _ => k
    fPass := fun k _ => (k.initMean, 0)
    defaultEZ := () }

/-- Effect of one successful or skipped decode on the reader state: the
view of `handle_packet` used to characterize the heading loop. -/
def applyDecode (s : RState) : Option Packet → RState
  | some q => { s with lastPacket := some q, decoded := s.decoded ++ [q] }
  | none => s

/-- Little-endian 4-byte encoding of a 32-bit word. -/
def encode4 (w : ℕ) : List ℕ :=
  [w % 256, w / 256 % 256, w / 65536 % 256, w / 16777216 % 256]

/-- Concatenated little-endian encodings of a list of 32-bit words: the
float section of a wire payload. -/
def encodeWords : List ℕ → List ℕ
  | [] => []
  | w :: ws => encode4 w ++ encodeWords ws

/-- Decidable statement of the malformed-frame premise: every recognized
marker occurring in the frame is followed by fewer bytes than its
format's `struct.calcsize`. -/
def frameUndecodable (B : List ℕ) : Bool :=
  HEADINGS.all fun h =>
    match splitFirst h B with
    | none => true
    | some pr => pr.2.length < calcsizeH h

/-! ### Scalar evaluation lemmas

Rational arithmetic does not reduce in the kernel, so concrete runs of
the triangulation are computed by rewriting with these. -/

theorem fin_add (a b : ℚ) : F.fin a + F.fin b = F.fin (a + b) := rfl

theorem fin_mul (a b : ℚ) : F.fin a * F.fin b = F.fin (a * b) := rfl

theorem fin_sub (a b : ℚ) : F.fin a - F.fin b = F.fin (a - b) := by
  show F.fin (a + -b) = F.fin (a - b)
  rw [← sub_eq_add_neg]

theorem fin_div {b : ℚ} (a : ℚ) (hb : b ≠ 0) :
    F.fin a / F.fin b = F.fin (a / b) := by
  show F.div _ _ = _
  simp [F.div, hb]

theorem fin_div_zero {a : ℚ} (ha : 0 < a) : F.fin a / F.fin 0 = F.pinf := by
  show F.div _ _ = _
  simp [F.div, ha]

theorem nan_mul (x : F) : F.nan * x = F.nan := by cases x <;> rfl

theorem mul_nan (x : F) : x * F.nan = F.nan := by cases x <;> rfl

theorem nan_div (x : F) : F.nan / x = F.nan := by cases x <;> rfl

theorem nan_add (x : F) : F.nan + x = F.nan := by cases x <;> rfl

theorem fin_add_pinf (a : ℚ) : F.fin a + F.pinf = F.pinf := rfl

theorem pinf_mul_pinf : F.pinf * F.pinf = F.pinf := rfl

theorem fin_mul_pinf {a : ℚ} (ha : 0 < a) : F.fin a * F.pinf = F.pinf := by
  show F.mul _ _ = _
  simp [F.mul, ha]

theorem pinf_div_pinf : F.pinf / F.pinf = F.nan := rfl

theorem sqrtF_pinf (sq : ℚ → ℚ) : sqrtF sq F.pinf = F.pinf := rfl

theorem sqrtF_fin {q : ℚ} (sq : ℚ → ℚ) (hq : 0 ≤ q) :
    sqrtF sq (F.fin q) = F.fin (sq q) := by
  simp [sqrtF, not_lt.2 hq]

theorem getD_concat_length {α : Type} (l : List α) (a d : α) :
    (l ++ [a]).getD l.length d = a := by
  induction l with
  | nil => rfl
  | cons x xs ih => simp [ih]

theorem getD_set_ne {α : Type} (a d : α) :
    ∀ (l : List α) (n m : ℕ), n ≠ m →
      (l.set n a).getD m d = l.getD m d
  | [], _, _, _ => rfl
  | _ :: _, 0, 0, h => absurd rfl h
  | _ :: _, 0, _ + 1, _ => by simp
  | _ :: _, _ + 1, 0, _ => by simp
  | _ :: xs, n + 1, m + 1, h => by
    simpa using getD_set_ne a d xs n m (by omega)

/-! ### C3 — liveness flag on `run` termination -/

/-- C3: evaluation of `run` at the failing input.  When `at_start` fails
(the frame source is unusable at startup), `run()` terminates by an
exception that escapes it — and `self.alive` is still `True` afterwards,
because `at_start()` is called before the `try` block that sets
`alive = False` on startup failure.  The spec requires the liveness flag
to be `False` whenever `run()` terminates. -/
theorem run_at_start_failure_leaves_alive :
    runModel false true [] = some (Except.error ⟨true, false⟩) ∧
    aliveAfter (Except.error ⟨true, false⟩) = true ∧
    runModel true false [] = some (Except.ok ⟨false, false⟩) ∧
    runModel true true [LoopEvt.ok, LoopEvt.acqFail]
      = some (Except.ok ⟨false, false⟩) := by
  exact ⟨rfl, rfl, rfl, rfl⟩

/-! ### C9 — `get_poses` returns a defensive copy -/

/-- C9: `get_poses()` allocates a fresh array holding a copy of the full
pose table: the returned reference is distinct from the live table's,
its contents equal the table's, and mutating the returned array changes
neither the live table nor what any subsequent `get_poses()` call
returns. -/
theorem get_poses_defensive_copy (t : TrackerRef) (h : Heap)
    (hvalid : t.posesRef < h.arrs.length) :
    (get_poses t h).1 ≠ t.posesRef ∧
    readH (get_poses t h).2 (get_poses t h).1 = readH h t.posesRef ∧
    ∀ (i : ℕ) (v : F3),
      readH (writeH (get_poses t h).2 (get_poses t h).1 i v) t.posesRef
          = readH h t.posesRef ∧
      readH (get_poses t (writeH (get_poses t h).2 (get_poses t h).1 i v)).2
            (get_poses t (writeH (get_poses t h).2 (get_poses t h).1 i v)).1
          = readH h t.posesRef := by
  have hfst : (get_poses t h).1 = h.arrs.length := rfl
  refine ⟨by omega, ?_, ?_⟩
  · exact getD_concat_length h.arrs (readH h t.posesRef) []
  · intro i v
    have hne : h.arrs.length ≠ t.posesRef := by omega
    have hmut : readH (writeH (get_poses t h).2 (get_poses t h).1 i v)
        t.posesRef = readH h t.posesRef := by
      show ((h.arrs ++ [readH h t.posesRef]).set h.arrs.length _).getD
          t.posesRef [] = readH h t.posesRef
      rw [getD_set_ne _ _ _ _ _ hne]
      show (h.arrs ++ [readH h t.posesRef]).getD t.posesRef [] = _
      rw [List.getD_append _ _ _ _ hvalid]
      rfl
    refine ⟨hmut, ?_⟩
    show ((writeH (get_poses t h).2 (get_poses t h).1 i v).arrs
        ++ [readH (writeH (get_poses t h).2 (get_poses t h).1 i v)
              t.posesRef]).getD
          (writeH (get_poses t h).2 (get_poses t h).1 i v).arrs.length []
        = readH h t.posesRef
    rw [getD_concat_length, hmut]

/-- C9 witness: the theorem applied to a one-row table. -/
theorem get_poses_defensive_copy_witness :
    (get_poses ⟨0⟩ ⟨[[(F.fin 1, F.fin 2, F.fin 3)]]⟩).1 ≠ 0 ∧
    readH (writeH (get_poses ⟨0⟩ ⟨[[(F.fin 1, F.fin 2, F.fin 3)]]⟩).2
        (get_poses ⟨0⟩ ⟨[[(F.fin 1, F.fin 2, F.fin 3)]]⟩).1 0
        (F.nan, F.nan, F.nan)) 0
      = [(F.fin 1, F.fin 2, F.fin 3)] := by
  have h := get_poses_defensive_copy ⟨0⟩ ⟨[[(F.fin 1, F.fin 2, F.fin 3)]]⟩
    (by decide)
  exact ⟨h.1, (h.2.2 0 (F.nan, F.nan, F.nan)).1⟩

/-! ### C1 — non-finite triangulation results -/

/-- Concrete run of the triangulation at the degenerate center blob:
`l_px = 0`, so `f/l_px` is `+inf` and the result collapses to NaN. -/
theorem solve_blob_point_center_eval :
    solve_blob_point id 490 640 480 2 320 240 4 = (F.nan, F.nan, F.nan) := by
  norm_num [solve_blob_point, fin_add, fin_mul, fin_sub, fin_div,
    fin_div_zero, nan_mul, mul_nan, nan_div, nan_add, fin_add_pinf,
    pinf_mul_pinf, fin_mul_pinf, pinf_div_pinf, sqrtF_pinf, sqrtF_fin]

/-- C1 counterexample: a blob exactly at the image center (640 × 480
frame, blob at (320, 240), radius 4, focal length 490, ball radius 2).
The triangulated value is (NaN, NaN, NaN), and `solve_blob_poses` writes
it into the published pose table *before* the `has_nan_in_pose` check:
the channel's published pose changes to a NaN pose, observable by
`get_poses`, contradicting the claim that the published pose is left
unchanged and a NaN pose is never observable. -/
theorem solve_blob_poses_nan_pose_published_cx :
    (solve_blob_poses_chan id trivOps 490 640 480 2
        ⟨(F.fin 0, F.fin 0, F.fin 0), none⟩ (some ⟨320, 240, 4⟩)).1.pose
      = (F.nan, F.nan, F.nan) ∧
    (solve_blob_poses_chan id trivOps 490 640 480 2
        ⟨(F.fin 0, F.fin 0, F.fin 0), none⟩ (some ⟨320, 240, 4⟩)).1.pose
      ≠ (F.fin 0, F.fin 0, F.fin 0) ∧
    has_nan_in_pose
      (solve_blob_poses_chan id trivOps 490 640 480 2
        ⟨(F.fin 0, F.fin 0, F.fin 0), none⟩ (some ⟨320, 240, 4⟩)).1.pose
      = true := by
  have hout : solve_blob_poses_chan id trivOps 490 640 480 2
      ⟨(F.fin 0, F.fin 0, F.fin 0), none⟩ (some ⟨320, 240, 4⟩)
      = (⟨(F.nan, F.nan, F.nan), none⟩, none) := by
    simp [solve_blob_poses_chan, solve_blob_point_center_eval,
      has_nan_in_pose, F.isNan]
  rw [hout]
  exact ⟨rfl, by decide, rfl⟩

/-- C1 (amended): when the blob detector returns a blob whose
triangulated result is non-finite, the observation is not fed to the
channel's Kalman filter and no filter is created — but the channel's
published pose *is* overwritten with the non-finite value (so it is
observable via `get_poses` until a later finite observation replaces
it). -/
theorem solve_blob_poses_nonfinite_skips_filter {EZ : Type}
    (sq : ℚ → ℚ) (ops : KOps EZ) (fPx W H R : ℚ)
    (st : ChanState EZ) (b : Blob)
    (hnan : has_nan_in_pose (solve_blob_point sq fPx W H R b.x b.y b.w)
      = true) :
    solve_blob_poses_chan sq ops fPx W H R st (some b)
      = (⟨solve_blob_point sq fPx W H R b.x b.y b.w, st.filt⟩, none) := by
  simp [solve_blob_poses_chan, hnan]

/-- C1 witness: the amended theorem applied to the centered blob. -/
theorem solve_blob_poses_nonfinite_skips_filter_witness :
    has_nan_in_pose (solve_blob_point id 490 640 480 2 320 240 4)
        = true ∧
    solve_blob_poses_chan id trivOps 490 640 480 2
        ⟨(F.fin 0, F.fin 0, F.fin 0), none⟩ (some ⟨320, 240, 4⟩)
      = (⟨solve_blob_point id 490 640 480 2 320 240 4, none⟩, none) := by
  have hnan : has_nan_in_pose (solve_blob_point id 490 640 480 2 320 240 4)
      = true := by rw [solve_blob_point_center_eval]; rfl
  exact ⟨hnan,
    solve_blob_poses_nonfinite_skips_filter id trivOps 490 640 480 2
      ⟨(F.fin 0, F.fin 0, F.fin 0), none⟩ ⟨320, 240, 4⟩ hnan⟩

/-! ### C4 — calibration countdown of `LazyKalman.apply` -/

/-- One `apply` while more than one tick of countdown remains: the
observation is appended, the countdown decremented, no refit. -/
theorem apply_collect_step {EZ : Type} (ops : KOps EZ) (lk : LK EZ)
    (o : F3) (h0 : lk.countdown ≠ 0) (h1 : lk.countdown - 1 ≠ 0) :
    (LK.apply ops lk o).1.filt = lk.filt ∧
    (LK.apply ops lk o).1.countdown = lk.countdown - 1 ∧
    (LK.apply ops lk o).1.obsBuf = lk.obsBuf ++ [o] ∧
    (LK.apply ops lk o).1.emIter = lk.emIter ∧
    (LK.apply ops lk o).2.2 = 0 := by
  cases hdl : lk.doLearning <;>
    simp [LK.apply, hdl, h0, h1]

/-- The `apply` that brings the countdown to zero runs the calibration. -/
theorem apply_refit_step {EZ : Type} (ops : KOps EZ) (lk : LK EZ)
    (o : F3) (h1 : lk.countdown = 1) :
    (LK.apply ops lk o).1.filt
        = ops.emFit lk.filt (lk.obsBuf ++ [o]) lk.emIter ∧
    (LK.apply ops lk o).1.countdown = 0 ∧
    (LK.apply ops lk o).1.obsBuf = [] ∧
    (LK.apply ops lk o).1.emIter = lk.emIter ∧
    (LK.apply ops lk o).1.xNow
        = (ops.fPass (ops.emFit lk.filt (lk.obsBuf ++ [o]) lk.emIter)
            (lk.obsBuf ++ [o])).1 ∧
    (LK.apply ops lk o).1.pNow
        = (ops.fPass (ops.emFit lk.filt (lk.obsBuf ++ [o]) lk.emIter)
            (lk.obsBuf ++ [o])).2 ∧
    (LK.apply ops lk o).2.2 = 1 := by
  cases hdl : lk.doLearning <;>
    simp [LK.apply, LK.runCalibration, hdl, h1]

/-- An `apply` with the countdown at zero neither buffers nor refits. -/
theorem apply_idle_step {EZ : Type} (ops : KOps EZ) (lk : LK EZ)
    (o : F3) (h0 : lk.countdown = 0) :
    (LK.apply ops lk o).1.filt = lk.filt ∧
    (LK.apply ops lk o).1.countdown = 0 ∧
    (LK.apply ops lk o).1.obsBuf = lk.obsBuf ∧
    (LK.apply ops lk o).1.emIter = lk.emIter ∧
    (LK.apply ops lk o).2.2 = 0 := by
  cases hdl : lk.doLearning <;>
    simp [LK.apply, hdl, h0]

/-- One-step unfolding of `LK.applyList` (state component). -/
theorem applyList_cons_fst {EZ : Type} (ops : KOps EZ) (lk : LK EZ)
    (o : F3) (rest : List F3) :
    (LK.applyList ops lk (o :: rest)).1
      = (LK.applyList ops (LK.apply ops lk o).1 rest).1 := rfl

/-- One-step unfolding of `LK.applyList` (refit-count component). -/
theorem applyList_cons_snd {EZ : Type} (ops : KOps EZ) (lk : LK EZ)
    (o : F3) (rest : List F3) :
    (LK.applyList ops lk (o :: rest)).2
      = (LK.apply ops lk o).2.2
          + (LK.applyList ops (LK.apply ops lk o).1 rest).2 := rfl

/-- Collection phase: applying fewer observations than the countdown
buffers all of them in order, decrementing the countdown, with no refit
and the filter untouched. -/
theorem applyList_collect {EZ : Type} (ops : KOps EZ) (obs : List F3) :
    ∀ lk : LK EZ, obs.length < lk.countdown →
      (LK.applyList ops lk obs).1.filt = lk.filt ∧
      (LK.applyList ops lk obs).1.countdown = lk.countdown - obs.length ∧
      (LK.applyList ops lk obs).1.obsBuf = lk.obsBuf ++ obs ∧
      (LK.applyList ops lk obs).1.emIter = lk.emIter ∧
      (LK.applyList ops lk obs).2 = 0 := by
  induction obs with
  | nil => intro lk _; simp [LK.applyList]
  | cons o rest ih =>
    intro lk h
    have hlen : rest.length + 1 < lk.countdown := by
      simpa using h
    have h0 : lk.countdown ≠ 0 := by omega
    have h1 : lk.countdown - 1 ≠ 0 := by omega
    obtain ⟨e1, e2, e3, e4, e5⟩ := apply_collect_step ops lk o h0 h1
    have hr : rest.length < (LK.apply ops lk o).1.countdown := by omega
    obtain ⟨f1, f2, f3, f4, f5⟩ := ih (LK.apply ops lk o).1 hr
    refine ⟨?_, ?_, ?_, ?_, ?_⟩ <;>
      simp [LK.applyList, f1, f2, f3, f4, f5, e1, e2, e3, e4, e5]
    · omega

/-- Refit phase: applying exactly as many observations as the countdown
triggers exactly one refit — em over the whole buffer, a filter pass over
the same buffer providing the new mean/covariance, buffer cleared,
countdown zero. -/
theorem applyList_refit {EZ : Type} (ops : KOps EZ) (obs : List F3) :
    ∀ lk : LK EZ, lk.countdown = obs.length → obs ≠ [] →
      (LK.applyList ops lk obs).1.filt
          = ops.emFit lk.filt (lk.obsBuf ++ obs) lk.emIter ∧
      (LK.applyList ops lk obs).1.countdown = 0 ∧
      (LK.applyList ops lk obs).1.obsBuf = [] ∧
      (LK.applyList ops lk obs).1.emIter = lk.emIter ∧
      (LK.applyList ops lk obs).1.xNow
          = (ops.fPass (ops.emFit lk.filt (lk.obsBuf ++ obs) lk.emIter)
              (lk.obsBuf ++ obs)).1 ∧
      (LK.applyList ops lk obs).1.pNow
          = (ops.fPass (ops.emFit lk.filt (lk.obsBuf ++ obs) lk.emIter)
              (lk.obsBuf ++ obs)).2 ∧
      (LK.applyList ops lk obs).2 = 1 := by
  induction obs with
  | nil => intro lk _ hne; exact absurd rfl hne
  | cons o rest ih =>
    intro lk hcd _
    rcases rest with _ | ⟨o2, rest2⟩
    · have h1 : lk.countdown = 1 := by simpa using hcd
      obtain ⟨e1, e2, e3, e4, e5, e6, e7⟩ := apply_refit_step ops lk o h1
      rw [applyList_cons_fst, applyList_cons_snd]
      refine ⟨?_, ?_, ?_, ?_, ?_, ?_, ?_⟩ <;>
        simp [LK.applyList, e1, e2, e3, e4, e5, e6, e7]
    · have h0 : lk.countdown ≠ 0 := by simp [hcd]
      have h1 : lk.countdown - 1 ≠ 0 := by
        simp at hcd
        omega
      obtain ⟨e1, e2, e3, e4, e5⟩ := apply_collect_step ops lk o h0 h1
      have hcd2 : (LK.apply ops lk o).1.countdown
          = (o2 :: rest2).length := by
        rw [e2]
        simp at hcd ⊢
        omega
      obtain ⟨f1, f2, f3, f4, f5, f6, f7⟩ :=
        ih (LK.apply ops lk o).1 hcd2 (by simp)
      rw [applyList_cons_fst, applyList_cons_snd]
      have hbufeq : (LK.apply ops lk o).1.obsBuf ++ o2 :: rest2
          = lk.obsBuf ++ o :: o2 :: rest2 := by
        rw [e3]
        simp
      refine ⟨?_, f2, f3, ?_, ?_, ?_, ?_⟩
      · rw [f1, e1, e4, hbufeq]
      · rw [f4, e4]
      · rw [f5, e1, e4, hbufeq]
      · rw [f6, e1, e4, hbufeq]
      · rw [e5, f7]

/-- Idle phase: with the countdown at zero no observation is ever
buffered and no refit is ever triggered. -/
theorem applyList_idle {EZ : Type} (ops : KOps EZ) (obs : List F3) :
    ∀ lk : LK EZ, lk.countdown = 0 →
      (LK.applyList ops lk obs).1.filt = lk.filt ∧
      (LK.applyList ops lk obs).1.countdown = 0 ∧
      (LK.applyList ops lk obs).1.obsBuf = lk.obsBuf ∧
      (LK.applyList ops lk obs).2 = 0 := by
  induction obs with
  | nil => intro lk h0; simp [LK.applyList, h0]
  | cons o rest ih =>
    intro lk h0
    obtain ⟨e1, e2, e3, _, e5⟩ := apply_idle_step ops lk o h0
    obtain ⟨f1, f2, f3, f4⟩ := ih (LK.apply ops lk o).1 e2
    rw [applyList_cons_fst, applyList_cons_snd]
    exact ⟨f1.trans e1, f2, f3.trans e3, by rw [e5, f4]⟩

/-- C4: with `calibration_countdown = N > 0` and an empty pending buffer,
each of the next `N` `apply` calls buffers the raw observation and
decrements the countdown; the `N`-th call triggers exactly one refit —
an em pass over the `N` buffered observations with the configured
iteration count, a filter pass over the same buffer whose final
mean/covariance become the filter's mean/covariance — and clears the
buffer; afterwards the countdown stays 0 and no observation is buffered
and no refit triggered by any further `apply`. -/
theorem lazyKalman_calibration_cycle {EZ : Type} (ops : KOps EZ)
    (lk : LK EZ) (obs post : List F3)
    (hcd : lk.countdown = obs.length) (hne : obs ≠ [])
    (hbuf : lk.obsBuf = []) :
    (∀ i, i < obs.length →
      (LK.applyList ops lk (obs.take i)).1.countdown = obs.length - i ∧
      (LK.applyList ops lk (obs.take i)).1.obsBuf = obs.take i ∧
      (LK.applyList ops lk (obs.take i)).2 = 0) ∧
    (LK.applyList ops lk obs).1.filt = ops.emFit lk.filt obs lk.emIter ∧
    (LK.applyList ops lk obs).1.xNow
        = (ops.fPass (ops.emFit lk.filt obs lk.emIter) obs).1 ∧
    (LK.applyList ops lk obs).1.pNow
        = (ops.fPass (ops.emFit lk.filt obs lk.emIter) obs).2 ∧
    (LK.applyList ops lk obs).1.obsBuf = [] ∧
    (LK.applyList ops lk obs).1.countdown = 0 ∧
    (LK.applyList ops lk obs).2 = 1 ∧
    (LK.applyList ops (LK.applyList ops lk obs).1 post).1.countdown = 0 ∧
    (LK.applyList ops (LK.applyList ops lk obs).1 post).1.obsBuf = [] ∧
    (LK.applyList ops (LK.applyList ops lk obs).1 post).1.filt
        = ops.emFit lk.filt obs lk.emIter ∧
    (LK.applyList ops (LK.applyList ops lk obs).1 post).2 = 0 := by
  obtain ⟨g1, g2, g3, g4, g5, g6, g7⟩ :=
    applyList_refit ops obs lk hcd hne
  rw [hbuf, List.nil_append] at g1 g5 g6
  obtain ⟨p1, p2, p3, p4⟩ := applyList_idle ops post _ g2
  refine ⟨?_, g1, g5, g6, g3, g2, g7, ?_, ?_, ?_, p4⟩
  · intro i hi
    have hlt : (obs.take i).length < lk.countdown := by
      simp [List.length_take]
      omega
    obtain ⟨c1, c2, c3, c4, c5⟩ := applyList_collect ops (obs.take i) lk hlt
    rw [hbuf, List.nil_append] at c3
    refine ⟨?_, c3, c5⟩
    rw [c2, hcd]
    simp [List.length_take]
    omega
  · rw [p2]
  · rw [p3, g3]
  · rw [p1, g1]

/-- C4 witness: a countdown of 2, two observations, then one more. -/
theorem lazyKalman_calibration_cycle_witness :
    (LK.applyList trivOps
        (mkLK trivOps (F.fin 1, F.fin 1, F.fin 1) 1 1 5 2)
        [(F.fin 2, F.fin 2, F.fin 2), (F.fin 3, F.fin 3, F.fin 3)]).2
      = 1 ∧
    (LK.applyList trivOps
        (mkLK trivOps (F.fin 1, F.fin 1, F.fin 1) 1 1 5 2)
        [(F.fin 2, F.fin 2, F.fin 2), (F.fin 3, F.fin 3, F.fin 3)]).1.countdown
      = 0 ∧
    (LK.applyList trivOps
        (mkLK trivOps (F.fin 1, F.fin 1, F.fin 1) 1 1 5 2)
        [(F.fin 2, F.fin 2, F.fin 2), (F.fin 3, F.fin 3, F.fin 3)]).1.obsBuf
      = [] ∧
    (LK.applyList trivOps
        (LK.applyList trivOps
          (mkLK trivOps (F.fin 1, F.fin 1, F.fin 1) 1 1 5 2)
          [(F.fin 2, F.fin 2, F.fin 2), (F.fin 3, F.fin 3, F.fin 3)]).1
        [(F.fin 4, F.fin 4, F.fin 4)]).2
      = 0 := by
  obtain ⟨_, _, _, _, h5, h6, h7, _, _, _, h11⟩ :=
    lazyKalman_calibration_cycle trivOps
      (mkLK trivOps (F.fin 1, F.fin 1, F.fin 1) 1 1 5 2)
      [(F.fin 2, F.fin 2, F.fin 2), (F.fin 3, F.fin 3, F.fin 3)]
      [(F.fin 4, F.fin 4, F.fin 4)] rfl (by simp) rfl
  exact ⟨h7, h6, h5, h11⟩

/-! ### C6 — lazy per-channel filter creation -/

/-- C6: the channel's Kalman filter stays absent while no finite
observation arrives (no blob, or a non-finite triangulation); on the
first finite triangulated observation it is created with the pykalman
`initial_state_mean` equal to that observation and identity 3 × 3
transition and observation matrices, and the published pose for that
cycle is the raw observation (not a filter output); on a later finite
observation with the filter present, the observation is fed through the
filter's update and the filtered mean becomes the published pose. -/
theorem chan_lazy_filter_init {EZ : Type} (sq : ℚ → ℚ) (ops : KOps EZ)
    (fPx W H R : ℚ) (st : ChanState EZ) (b : Blob) :
    ((solve_blob_poses_chan sq ops fPx W H R st none).1 = st) ∧
    (st.filt = none →
      has_nan_in_pose (solve_blob_point sq fPx W H R b.x b.y b.w) = true →
      (solve_blob_poses_chan sq ops fPx W H R st (some b)).1.filt
        = none) ∧
    (st.filt = none →
      has_nan_in_pose (solve_blob_point sq fPx W H R b.x b.y b.w) = false →
      (solve_blob_poses_chan sq ops fPx W H R st (some b)).1
          = ⟨solve_blob_point sq fPx W H R b.x b.y b.w,
             some (mkLK ops
               (solve_blob_point sq fPx W H R b.x b.y b.w) 1 1)⟩ ∧
      (solve_blob_poses_chan sq ops fPx W H R st (some b)).2 = none ∧
      (mkLK ops (solve_blob_point sq fPx W H R b.x b.y b.w) 1 1
          : LK EZ).filt.initMean
        = solve_blob_point sq fPx W H R b.x b.y b.w ∧
      (mkLK ops (solve_blob_point sq fPx W H R b.x b.y b.w) 1 1
          : LK EZ).filt.transition = 1 ∧
      (mkLK ops (solve_blob_point sq fPx W H R b.x b.y b.w) 1 1
          : LK EZ).filt.observation = 1) ∧
    (∀ k, st.filt = some k →
      has_nan_in_pose (solve_blob_point sq fPx W H R b.x b.y b.w) = false →
      (solve_blob_poses_chan sq ops fPx W H R st (some b)).1
          = ⟨(LK.apply ops k
               (solve_blob_point sq fPx W H R b.x b.y b.w)).2.1,
             some (LK.apply ops k
               (solve_blob_point sq fPx W H R b.x b.y b.w)).1⟩ ∧
      (solve_blob_poses_chan sq ops fPx W H R st (some b)).2
        = some (solve_blob_point sq fPx W H R b.x b.y b.w)) := by
  refine ⟨rfl, ?_, ?_, ?_⟩
  · intro hf hnan
    simp [solve_blob_poses_chan, hnan, hf]
  · intro hf hfin
    refine ⟨?_, ?_, rfl, rfl, rfl⟩ <;>
      simp [solve_blob_poses_chan, hfin, hf]
  · intro k hf hfin
    constructor <;>
      simp [solve_blob_poses_chan, hfin, hf]

/-- C6 witness: an off-center blob with a finite triangulation creates
the filter on a channel that had none. -/
theorem chan_lazy_filter_init_witness :
    has_nan_in_pose (solve_blob_point id 490 640 480 2 310 230 4)
        = false ∧
    (solve_blob_poses_chan id trivOps 490 640 480 2
        ⟨(F.fin 0, F.fin 0, F.fin 0), none⟩ (some ⟨310, 230, 4⟩)).1
      = ⟨solve_blob_point id 490 640 480 2 310 230 4,
         some (mkLK trivOps
           (solve_blob_point id 490 640 480 2 310 230 4) 1 1)⟩ := by
  have hfin : has_nan_in_pose (solve_blob_point id 490 640 480 2 310 230 4)
      = false := by
    norm_num [solve_blob_point, has_nan_in_pose, F.isNan, F.isInf,
      fin_add, fin_mul, fin_sub, fin_div, fin_div_zero, nan_mul, mul_nan,
      nan_div, nan_add, fin_add_pinf, pinf_mul_pinf, fin_mul_pinf,
      pinf_div_pinf, sqrtF_pinf, sqrtF_fin]
  have h := chan_lazy_filter_init id trivOps 490 640 480 2
    ⟨(F.fin 0, F.fin 0, F.fin 0), none⟩ ⟨310, 230, 4⟩
  exact ⟨hfin, (h.2.2.1 rfl hfin).1⟩

/-! ### C5 — triangulation matches the spec's reference formulas -/

/-- C5: for a blob whose radial pixel distance from the image center is
nonzero (and a positive focal length, a positive blob radius, and a
square root that is nonnegative and positive on positives — as the real
square root is), the source triangulation stays finite and equals the
reference formulas of spec section 4.2, computed in exact arithmetic with
the same abstract square root.  Both sides are pure functions of the
observation and the configured constants. -/
theorem solve_blob_point_matches_spec (sq : ℚ → ℚ) (fPx W H R x y w : ℚ)
    (hf : 0 < fPx) (hw : 0 < w)
    (hsqnn : ∀ q : ℚ, 0 ≤ sq q)
    (hsqpos : ∀ q : ℚ, 0 < q → 0 < sq q)
    (hl : sq ((x - W / 2) * (x - W / 2) + (H / 2 - y) * (H / 2 - y)) ≠ 0) :
    solve_blob_point sq fPx W H R x y w
      = (F.fin (estimate_spec sq fPx W H R x y w).1,
         F.fin (estimate_spec sq fPx W H R x y w).2.1,
         F.fin (estimate_spec sq fPx W H R x y w).2.2) := by
  simp only [solve_blob_point, estimate_spec]
  set x' : ℚ := x - W / 2 with hx'
  set y' : ℚ := H / 2 - y with hy'
  set lq : ℚ := sq (x' * x' + y' * y') with hlq
  have hl0 : 0 < lq := (hsqnn _).lt_of_ne (Ne.symm hl)
  set aq : ℚ := w / 2 with haq
  have ha0 : 0 < aq := by positivity
  set kq : ℚ := lq / fPx with hkq
  set jq : ℚ := (lq + aq) / fPx with hjq
  have hk0 : 0 < kq := div_pos hl0 hf
  have hj0 : 0 < jq := div_pos (by linarith) hf
  have hden : (0 : ℚ) < 1 + jq * kq := by positivity
  set tq : ℚ := (jq - kq) / (1 + jq * kq) with htq
  have hsub : jq - kq = aq / fPx := by
    rw [hjq, hkq, div_sub_div_same, add_sub_cancel_left]
  have ht0 : 0 < tq := by
    rw [htq, hsub]
    exact div_pos (div_pos ha0 hf) hden
  have h1t : (0 : ℚ) ≤ 1 + tq * tq := by positivity
  set dq : ℚ := R * sq (1 + tq * tq) / tq with hdq
  set flq : ℚ := fPx / lq with hflq
  have hfl0 : 0 < flq := div_pos hf hl0
  have h1fl : (0 : ℚ) ≤ 1 + flq * flq := by positivity
  have hsqfl : 0 < sq (1 + flq * flq) := hsqpos _ (by positivity)
  set zq : ℚ := dq * flq / sq (1 + flq * flq) with hzq
  have ek : F.fin lq / F.fin fPx = F.fin kq := by
    rw [fin_div _ (ne_of_gt hf)]
  have ej1 : F.fin lq + F.fin aq = F.fin (lq + aq) := fin_add _ _
  have ej2 : F.fin (lq + aq) / F.fin fPx = F.fin jq := by
    rw [fin_div _ (ne_of_gt hf)]
  have et1 : F.fin jq - F.fin kq = F.fin (jq - kq) := fin_sub _ _
  have et2 : F.fin jq * F.fin kq = F.fin (jq * kq) := fin_mul _ _
  have et3 : F.fin 1 + F.fin (jq * kq) = F.fin (1 + jq * kq) := fin_add _ _
  have et4 : F.fin (jq - kq) / F.fin (1 + jq * kq) = F.fin tq := by
    rw [fin_div _ (ne_of_gt hden)]
  have ed1 : F.fin tq * F.fin tq = F.fin (tq * tq) := fin_mul _ _
  have ed2 : F.fin 1 + F.fin (tq * tq) = F.fin (1 + tq * tq) := fin_add _ _
  have ed3 : sqrtF sq (F.fin (1 + tq * tq)) = F.fin (sq (1 + tq * tq)) :=
    sqrtF_fin sq h1t
  have ed4 : F.fin R * F.fin (sq (1 + tq * tq))
      = F.fin (R * sq (1 + tq * tq)) := fin_mul _ _
  have ed5 : F.fin (R * sq (1 + tq * tq)) / F.fin tq = F.fin dq := by
    rw [fin_div _ (ne_of_gt ht0)]
  have efl : F.fin fPx / F.fin lq = F.fin flq := by
    rw [fin_div _ (ne_of_gt hl0)]
  have ez1 : F.fin dq * F.fin flq = F.fin (dq * flq) := fin_mul _ _
  have ez2 : F.fin flq * F.fin flq = F.fin (flq * flq) := fin_mul _ _
  have ez3 : F.fin 1 + F.fin (flq * flq) = F.fin (1 + flq * flq) :=
    fin_add _ _
  have ez4 : sqrtF sq (F.fin (1 + flq * flq))
      = F.fin (sq (1 + flq * flq)) := sqrtF_fin sq h1fl
  have ez5 : F.fin (dq * flq) / F.fin (sq (1 + flq * flq)) = F.fin zq := by
    rw [fin_div _ (ne_of_gt hsqfl)]
  have el1 : F.fin zq * F.fin kq = F.fin (zq * kq) := fin_mul _ _
  have ex1 : F.fin (zq * kq) * F.fin x' = F.fin (zq * kq * x') := fin_mul _ _
  have ex2 : F.fin (zq * kq * x') / F.fin lq = F.fin (zq * kq * x' / lq) := by
    rw [fin_div _ (ne_of_gt hl0)]
  have ex3 : F.fin (zq * kq * x' / lq) / F.fin 100
      = F.fin (zq * kq * x' / lq / 100) := by
    rw [fin_div _ (by norm_num : (100 : ℚ) ≠ 0)]
  have ey1 : F.fin (zq * kq) * F.fin y' = F.fin (zq * kq * y') := fin_mul _ _
  have ey2 : F.fin (zq * kq * y') / F.fin lq = F.fin (zq * kq * y' / lq) := by
    rw [fin_div _ (ne_of_gt hl0)]
  have ey3 : F.fin (zq * kq * y' / lq) / F.fin 100
      = F.fin (zq * kq * y' / lq / 100) := by
    rw [fin_div _ (by norm_num : (100 : ℚ) ≠ 0)]
  have ez6 : F.fin zq / F.fin 100 = F.fin (zq / 100) := by
    rw [fin_div _ (by norm_num : (100 : ℚ) ≠ 0)]
  rw [ek, ej1, ej2, et1, et2, et3, et4, ed1, ed2, ed3, ed4, ed5, efl,
    ez1, ez2, ez3, ez4, ez5, el1, ex1, ex2, ex3, ey1, ey2, ey3, ez6]

/-- C5 witness: the theorem applied at focal length 490, frame 640 × 480,
ball radius 2 cm, blob (310, 230) with radius 4, with `|·|` as the
square root (nonnegative and positive on positives). -/
theorem solve_blob_point_matches_spec_witness :
    solve_blob_point (fun q => |q|) 490 640 480 2 310 230 4
      = (F.fin (estimate_spec (fun q => |q|) 490 640 480 2 310 230 4).1,
         F.fin (estimate_spec (fun q => |q|) 490 640 480 2 310 230 4).2.1,
         F.fin (estimate_spec (fun q => |q|) 490 640 480 2 310 230 4).2.2)
    := by
  refine solve_blob_point_matches_spec (fun q => |q|) 490 640 480 2 310 230 4
    (by norm_num) (by norm_num) (fun q => abs_nonneg q)
    (fun q hq => abs_pos.2 (ne_of_gt hq)) ?_
  norm_num

/-! ### Framing lemmas for the serial reader -/

theorem startsWithL_append_self (t r : List ℕ) :
    startsWithL t (t ++ r) = true := by
  induction t with
  | nil => rfl
  | cons a t ih => simp [startsWithL, ih]

theorem startsWithL_length {p l : List ℕ} (h : startsWithL p l = true) :
    p.length ≤ l.length := by
  induction p generalizing l with
  | nil => simp
  | cons a p ih =>
    cases l with
    | nil => simp [startsWithL] at h
    | cons b l =>
      simp only [startsWithL, Bool.and_eq_true, decide_eq_true_eq] at h
      have := ih h.2
      simp only [List.length_cons]
      omega

theorem findSub_of_startsWith {pat l : List ℕ}
    (h : startsWithL pat l = true) : findSub pat l = some 0 := by
  cases l with
  | nil => simp [findSub, h]
  | cons b l => simp [findSub, h]

theorem findSub_le (pat : List ℕ) : ∀ (l : List ℕ) (i : ℕ),
    findSub pat l = some i → i + pat.length ≤ l.length := by
  intro l
  induction l with
  | nil =>
    intro i h
    by_cases hs : startsWithL pat [] = true
    · have hp := startsWithL_length hs
      simp only [List.length_nil] at hp ⊢
      simp [findSub, hs] at h
      omega
    · simp [findSub, hs] at h
  | cons x xs ih =>
    intro i h
    by_cases hs : startsWithL pat (x :: xs) = true
    · have hp := startsWithL_length hs
      simp only [List.length_cons] at hp ⊢
      simp [findSub, hs] at h
      omega
    · simp only [findSub] at h
      rw [if_neg hs] at h
      cases hf : findSub pat xs with
      | none => rw [hf] at h; simp at h
      | some j =>
        rw [hf] at h
        simp only [Option.map_some', Option.some_inj] at h
        have := ih j hf
        simp only [List.length_cons]
        omega

theorem findSub_term_append (rest : List ℕ) : ∀ (Fr : List ℕ),
    findSub TERM Fr = none →
    findSub TERM (Fr ++ TERM ++ rest) = some Fr.length := by
  intro Fr
  induction Fr with
  | nil =>
    intro _
    simp only [List.nil_append]
    rw [findSub_of_startsWith (startsWithL_append_self TERM rest)]
    rfl
  | cons a Fr ih =>
    intro h
    have hnp : ¬ startsWithL TERM (a :: Fr) = true := by
      intro hs
      simp [findSub, hs] at h
    have hFr : findSub TERM Fr = none := by
      simp only [findSub] at h
      rw [if_neg hnp] at h
      exact Option.map_eq_none'.mp h
    have hnp2 : ¬ startsWithL TERM (a :: (Fr ++ TERM ++ rest)) = true := by
      intro hs
      rcases Fr with _ | ⟨b, _ | ⟨c, Fr2⟩⟩
      · simp [startsWithL, TERM] at hs
      · simp [startsWithL, TERM] at hs
      · simp only [startsWithL, TERM, List.cons_append, Bool.and_eq_true,
          decide_eq_true_eq] at hs hnp
        exact hnp ⟨hs.1, hs.2.1, hs.2.2.1, trivial⟩
    have hstep : (a :: Fr) ++ TERM ++ rest = a :: (Fr ++ TERM ++ rest) := by
      simp
    rw [hstep]
    simp only [findSub]
    rw [if_neg hnp2, ih hFr]
    rfl

theorem splitFirst_term_append (Fr rest : List ℕ)
    (h : findSub TERM Fr = none) :
    splitFirst TERM (Fr ++ TERM ++ rest) = some (Fr, rest) := by
  unfold splitFirst
  rw [findSub_term_append rest Fr h]
  simp only [Option.map_some']
  have h1 : (Fr ++ TERM ++ rest).take Fr.length = Fr := by
    rw [List.append_assoc]
    exact List.take_left Fr (TERM ++ rest)
  have h2 : (Fr ++ TERM ++ rest).drop (Fr.length + TERM.length) = rest := by
    rw [show Fr.length + TERM.length = (Fr ++ TERM).length by simp]
    exact List.drop_left (Fr ++ TERM) rest
  rw [h1, h2]

theorem splitFirst_eq_none (pat l : List ℕ) (h : findSub pat l = none) :
    splitFirst pat l = none := by
  simp [splitFirst, h]

theorem splitFirst_shrink {l : List ℕ} {pr : List ℕ × List ℕ}
    (h : splitFirst TERM l = some pr) : pr.2.length < l.length := by
  unfold splitFirst at h
  cases hf : findSub TERM l with
  | none => rw [hf] at h; simp at h
  | some i =>
    rw [hf] at h
    simp only [Option.map_some', Option.some_inj] at h
    have hle := findSub_le TERM l i hf
    rw [← h]
    simp only [List.length_drop]
    have h3 : TERM.length = 3 := rfl
    omega

theorem framesOfAux_step (fuel : ℕ) (buf : List ℕ) (pr : List ℕ × List ℕ)
    (h : splitFirst TERM buf = some pr) :
    framesOfAux (fuel + 1) buf
      = (pr.1 :: (framesOfAux fuel pr.2).1, (framesOfAux fuel pr.2).2) := by
  simp [framesOfAux, h]

theorem framesOfAux_noterm (fuel : ℕ) (l : List ℕ)
    (h : findSub TERM l = none) : framesOfAux fuel l = ([], l) := by
  cases fuel with
  | zero => rfl
  | succ fuel => simp [framesOfAux, splitFirst_eq_none TERM l h]

theorem framesOfAux_congr : ∀ (fa fb : ℕ) (buf : List ℕ),
    buf.length ≤ fa → buf.length ≤ fb →
    framesOfAux fa buf = framesOfAux fb buf := by
  intro fa
  induction fa with
  | zero =>
    intro fb buf ha _
    have : buf = [] := List.eq_nil_of_length_eq_zero (by omega)
    subst this
    cases fb with
    | zero => rfl
    | succ fb => rfl
  | succ fa ih =>
    intro fb buf ha hb
    cases fb with
    | zero =>
      have : buf = [] := List.eq_nil_of_length_eq_zero (by omega)
      subst this
      rfl
    | succ fb =>
      cases hsp : splitFirst TERM buf with
      | none => simp [framesOfAux, hsp]
      | some pr =>
        have hlt := splitFirst_shrink hsp
        rw [framesOfAux_step fa buf pr hsp, framesOfAux_step fb buf pr hsp,
          ih fb pr.2 (by omega) (by omega)]

theorem framesOf_cons (Fr rest : List ℕ) (h : findSub TERM Fr = none) :
    framesOf (Fr ++ TERM ++ rest)
      = (Fr :: (framesOf rest).1, (framesOf rest).2) := by
  unfold framesOf
  have hlen : (Fr ++ TERM ++ rest).length
      = (Fr.length + 2 + rest.length) + 1 := by
    simp [TERM]
    omega
  rw [hlen, framesOfAux_step _ _ _ (splitFirst_term_append Fr rest h)]
  rw [framesOfAux_congr (Fr.length + 2 + rest.length) rest.length rest
    (by omega) le_rfl]

theorem framesOf_noterm (l : List ℕ) (h : findSub TERM l = none) :
    framesOf l = ([], l) :=
  framesOfAux_noterm l.length l h

/-! ### Decode lemmas for the heading loop -/

theorem procFrame_step (st : RState) (h pkt : List ℕ) (hh : h ∈ HEADINGS) :
    (match splitFirst h pkt with
      | some pr => handle_packet st h pr.2
      | none => st)
    = applyDecode st (decodeAt h pkt) := by
  cases hsp : splitFirst h pkt with
  | none => simp [decodeAt, hsp, applyDecode]
  | some pr =>
    simp only [decodeAt, hsp]
    by_cases hlen : (pr.2.take (calcsizeH h)).length = calcsizeH h
    · have hnlt : ¬ pr.2.length < calcsizeH h := by
        simp only [List.length_take] at hlen
        omega
      simp [handle_packet, hh, hlen, hnlt, applyDecode]
    · have hlt : pr.2.length < calcsizeH h := by
        simp only [List.length_take] at hlen
        omega
      simp [handle_packet, hh, hlen, hlt, applyDecode]

theorem procFrame_eq (st : RState) (pkt : List ℕ) :
    procFrame st pkt
      = applyDecode
          (applyDecode (applyDecode st (decodeAt hmdM pkt))
            (decodeAt lcM pkt))
          (decodeAt rcM pkt) := by
  simp only [procFrame, HEADINGS, List.foldl]
  rw [procFrame_step st hmdM pkt (by simp [HEADINGS]),
    procFrame_step _ lcM pkt (by simp [HEADINGS]),
    procFrame_step _ rcM pkt (by simp [HEADINGS])]

theorem applyDecode_buffer (s : RState) (b : List ℕ) (o : Option Packet) :
    applyDecode { s with buffer := b } o
      = { applyDecode s o with buffer := b } := by
  cases o <;> rfl

theorem procFrame_buffer (s : RState) (b : List ℕ) (pkt : List ℕ) :
    procFrame { s with buffer := b } pkt
      = { procFrame s pkt with buffer := b } := by
  rw [procFrame_eq, procFrame_eq]
  cases decodeAt hmdM pkt <;> cases decodeAt lcM pkt <;>
    cases decodeAt rcM pkt <;> rfl

theorem data_received_one_frame (st : RState) (Fr : List ℕ)
    (hb : st.buffer = []) (hF : findSub TERM Fr = none) :
    data_received st (Fr ++ TERM) = { procFrame st Fr with buffer := [] } := by
  have hfr : framesOf (Fr ++ TERM) = ([Fr], []) := by
    have h0 := framesOf_cons Fr [] hF
    rw [List.append_nil] at h0
    simpa [framesOf, framesOfAux] using h0
  simp only [data_received, hb, List.nil_append, hfr, List.foldl]
  rw [procFrame_buffer]

theorem decodeAt_none_absent (h pkt : List ℕ)
    (hc : containsSub h pkt = false) : decodeAt h pkt = none := by
  cases hf : findSub h pkt with
  | none =>
    unfold decodeAt
    rw [splitFirst_eq_none h pkt hf]
  | some i => simp [containsSub, hf] at hc

theorem decodeAt_short (h pkt : List ℕ)
    (hsh : ∀ pr : List ℕ × List ℕ, splitFirst h pkt = some pr →
      pr.2.length < calcsizeH h) :
    decodeAt h pkt = none := by
  unfold decodeAt
  cases hsp : splitFirst h pkt with
  | none => rfl
  | some pr =>
    have hlt := hsh pr hsp
    have hne : (pr.2.take (calcsizeH h)).length ≠ calcsizeH h := by
      simp only [List.length_take]
      omega
    simp only [hne]
    simp [List.length_take]
    omega

theorem decodeAt_self (m payload : List ℕ)
    (hlen : calcsizeH m ≤ payload.length) :
    decodeAt m (m ++ payload)
      = some (unpackForm m (payload.take (calcsizeH m))) := by
  have hsp : splitFirst m (m ++ payload) = some ([], payload) := by
    unfold splitFirst
    rw [findSub_of_startsWith (startsWithL_append_self m payload)]
    simp [List.drop_left]
  unfold decodeAt
  rw [hsp]
  have hl : (payload.take (calcsizeH m)).length = calcsizeH m := by
    simp only [List.length_take]
    omega
  simp [hl]

theorem procFrame_good (st : RState) (m payload : List ℕ)
    (hm : m ∈ HEADINGS) (hlen : calcsizeH m ≤ payload.length)
    (hothers : ∀ h ∈ HEADINGS, h ≠ m →
      containsSub h (m ++ payload) = false) :
    procFrame st (m ++ payload)
      = { st with
          lastPacket := some (unpackForm m (payload.take (calcsizeH m))),
          decoded :=
            st.decoded ++ [unpackForm m (payload.take (calcsizeH m))] } := by
  rw [procFrame_eq]
  simp only [HEADINGS, List.mem_cons, List.mem_singleton,
    List.not_mem_nil, or_false] at hm
  rcases hm with rfl | rfl | rfl
  · rw [decodeAt_self _ _ hlen,
      decodeAt_none_absent lcM _
        (hothers lcM (by simp [HEADINGS]) (by decide)),
      decodeAt_none_absent rcM _
        (hothers rcM (by simp [HEADINGS]) (by decide))]
    rfl
  · rw [decodeAt_self _ _ hlen,
      decodeAt_none_absent hmdM _
        (hothers hmdM (by simp [HEADINGS]) (by decide)),
      decodeAt_none_absent rcM _
        (hothers rcM (by simp [HEADINGS]) (by decide))]
    rfl
  · rw [decodeAt_self _ _ hlen,
      decodeAt_none_absent hmdM _
        (hothers hmdM (by simp [HEADINGS]) (by decide)),
      decodeAt_none_absent lcM _
        (hothers lcM (by simp [HEADINGS]) (by decide))]
    rfl

theorem procFrame_skip (st : RState) (pkt : List ℕ)
    (hbad : ∀ h ∈ HEADINGS, ∀ pr : List ℕ × List ℕ,
      splitFirst h pkt = some pr → pr.2.length < calcsizeH h) :
    procFrame st pkt = st := by
  rw [procFrame_eq,
    decodeAt_short hmdM pkt (hbad hmdM (by simp [HEADINGS])),
    decodeAt_short lcM pkt (hbad lcM (by simp [HEADINGS])),
    decodeAt_short rcM pkt (hbad rcM (by simp [HEADINGS]))]
  rfl

/-! ### Encoding round trip -/

theorem encodeWords_length (ws : List ℕ) :
    (encodeWords ws).length = 4 * ws.length := by
  induction ws with
  | nil => rfl
  | cons w ws ih =>
    simp [encodeWords, encode4, ih]
    omega

theorem word32_encode4 (w : ℕ) (hw : w < 4294967296) (rest : List ℕ) :
    word32 (encode4 w ++ rest) = w := by
  simp only [word32, encode4, List.cons_append, List.nil_append,
    List.getD_cons_zero, List.getD_cons_succ]
  omega

theorem unpackWords_encode (ws : List ℕ) (hw : ∀ w ∈ ws, w < 4294967296)
    (tail : List ℕ) :
    unpackWords ws.length (encodeWords ws ++ tail) = ws := by
  induction ws with
  | nil => rfl
  | cons w ws ih =>
    simp only [encodeWords, List.length_cons, unpackWords, List.append_assoc]
    rw [word32_encode4 w (hw w (by simp)) _]
    rw [show (4 : ℕ) = (encode4 w).length from rfl, List.drop_left]
    rw [ih (fun u hu => hw u (by simp [hu]))]

theorem unpackForm_encode (m ws fb : List ℕ)
    (hws : ws.length = nFloats m) (hfb : fb.length = nBools m)
    (hw : ∀ w ∈ ws, w < 4294967296) :
    unpackForm m (encodeWords ws ++ fb)
      = ⟨m, ws, fb.map (0 < ·)⟩ := by
  unfold unpackForm
  rw [← hws, ← hfb]
  rw [unpackWords_encode ws hw fb]
  rw [show 4 * ws.length = (encodeWords ws).length
    from (encodeWords_length ws).symm, List.drop_left, List.take_length]

theorem take_calcsize (m ws fb extra : List ℕ)
    (hws : ws.length = nFloats m) (hfb : fb.length = nBools m) :
    (encodeWords ws ++ (fb ++ extra)).take (calcsizeH m)
      = encodeWords ws ++ fb := by
  rw [← List.append_assoc]
  rw [show calcsizeH m = (encodeWords ws ++ fb).length by
    simp [calcsizeH, encodeWords_length, hws, hfb]]
  exact List.take_left _ _

/-- A single well-formed frame feed: used by several claims. -/
theorem feed_good_frame_aux (st : RState) (m ws fb extra : List ℕ)
    (hb : st.buffer = []) (hm : m ∈ HEADINGS)
    (hws : ws.length = nFloats m) (hfb : fb.length = nBools m)
    (hw : ∀ u ∈ ws, u < 4294967296)
    (hterm : findSub TERM (m ++ (encodeWords ws ++ (fb ++ extra))) = none)
    (hothers : ∀ h ∈ HEADINGS, h ≠ m →
      containsSub h (m ++ (encodeWords ws ++ (fb ++ extra))) = false) :
    data_received st (m ++ (encodeWords ws ++ (fb ++ extra)) ++ TERM)
      = ⟨[], some ⟨m, ws, fb.map (0 < ·)⟩,
          st.decoded ++ [⟨m, ws, fb.map (0 < ·)⟩]⟩ := by
  have hpay : calcsizeH m ≤ (encodeWords ws ++ (fb ++ extra)).length := by
    simp [calcsizeH, encodeWords_length, hws, hfb]
  rw [data_received_one_frame st _ hb hterm,
    procFrame_good st m _ hm hpay hothers,
    take_calcsize m ws fb extra hws hfb,
    unpackForm_encode m ws fb hws hfb hw]

theorem frameUndecodable_spec {B : List ℕ}
    (hb : frameUndecodable B = true) :
    ∀ h ∈ HEADINGS, ∀ pr : List ℕ × List ℕ,
      splitFirst h B = some pr → pr.2.length < calcsizeH h := by
  intro h hh pr hpr
  simp only [frameUndecodable, List.all_eq_true] at hb
  have hx := hb h hh
  rw [hpr] at hx
  exact of_decide_eq_true hx

/-! ### C2 — marker handling within one frame -/

/-- C2 (amended): the heading loop of `data_received` checks the three
markers in the fixed order `hmd:`, `lc:`, `rc:` — not in frame-position
order, and with no break: every marker present with a long-enough payload
yields one decode (the ghost `decoded` trail grows by all of them), and
the stored last packet is the one for the *last* marker in that fixed
order that decodes successfully (unchanged if none does). -/
theorem procFrame_fixed_order (st : RState) (pkt : List ℕ) :
    (procFrame st pkt).decoded
        = st.decoded ++ HEADINGS.filterMap (fun h => decodeAt h pkt) ∧
    (procFrame st pkt).lastPacket
        = (HEADINGS.filterMap (fun h => decodeAt h pkt)).foldl
            (fun _ q => some q) st.lastPacket ∧
    (procFrame st pkt).buffer = st.buffer := by
  cases h1 : decodeAt hmdM pkt <;> cases h2 : decodeAt lcM pkt <;>
    cases h3 : decodeAt rcM pkt <;>
      simp [procFrame_eq, applyDecode, HEADINGS, h1, h2, h3]

/-- C2 counterexample: a frame in which `lc:` occurs first (index 0) and
`rc:` later (index 3).  The claim says at most one decode happens and the
stored packet is the one for the earliest marker (`lc:`); the code
decodes both and stores the `rc:` packet. -/
theorem procFrame_fixed_order_cx :
    findSub lcM (lcM ++ rcM ++ List.replicate 33 0) = some 0 ∧
    findSub rcM (lcM ++ rcM ++ List.replicate 33 0) = some 3 ∧
    (data_received initR
        (lcM ++ rcM ++ List.replicate 33 0 ++ TERM)).decoded.length = 2 ∧
    Option.map Packet.header
        (data_received initR
          (lcM ++ rcM ++ List.replicate 33 0 ++ TERM)).lastPacket
      = some rcM ∧
    rcM ≠ lcM := by
  exact ⟨by decide, by decide, by decide, by decide, by decide⟩

/-! ### C7 — well-formed frames decode to the injected values -/

/-- C7 (amended): a frame made of a recognized marker, a payload whose
float section holds the injected 32-bit words and whose flag section
holds the injected flag bytes, possibly extra trailing bytes, and the
terminator — provided the frame contains no terminator sequence and no
other recognized marker — decodes to exactly one packet: floats (as
32-bit words) first, then flags (`byte ≠ 0`), truncating and ignoring
the extra bytes. -/
theorem feed_valid_frame_decodes (st : RState) (m ws fb extra : List ℕ)
    (hb : st.buffer = []) (hm : m ∈ HEADINGS)
    (hws : ws.length = nFloats m) (hfb : fb.length = nBools m)
    (hw : ∀ u ∈ ws, u < 4294967296)
    (hterm : findSub TERM (m ++ (encodeWords ws ++ (fb ++ extra))) = none)
    (hothers : ∀ h ∈ HEADINGS, h ≠ m →
      containsSub h (m ++ (encodeWords ws ++ (fb ++ extra))) = false) :
    data_received st (m ++ (encodeWords ws ++ (fb ++ extra)) ++ TERM)
      = ⟨[], some ⟨m, ws, fb.map (0 < ·)⟩,
          st.decoded ++ [⟨m, ws, fb.map (0 < ·)⟩]⟩ :=
  feed_good_frame_aux st m ws fb extra hb hm hws hfb hw hterm hothers

/-- C7 counterexample: an `lc:` frame whose 33-byte payload (exactly the
expected length) happens to contain the terminator sequence.  The claim
promises exactly one decoded packet for every such byte sequence; feeding
it yields none. -/
theorem feed_valid_frame_decodes_cx :
    (TERM ++ List.replicate 30 0).length = calcsizeH lcM ∧
    (data_received initR
        (lcM ++ (TERM ++ List.replicate 30 0) ++ TERM)).lastPacket
      = none ∧
    (data_received initR
        (lcM ++ (TERM ++ List.replicate 30 0) ++ TERM)).decoded = [] := by
  exact ⟨by decide, by decide, by decide⟩

/-- C7 witness: an `hmd:` frame with four injected words and one extra
byte beyond the expected payload length. -/
theorem feed_valid_frame_decodes_witness :
    data_received initR
        (hmdM ++ (encodeWords [1, 2, 3, 4294967295] ++ ([] ++ [7])) ++ TERM)
      = ⟨[], some ⟨hmdM, [1, 2, 3, 4294967295], []⟩,
          [⟨hmdM, [1, 2, 3, 4294967295], []⟩]⟩ := by
  have h := feed_valid_frame_decodes initR hmdM [1, 2, 3, 4294967295] [] [7]
    rfl (by decide) (by decide) (by decide) (by decide) (by decide)
    (by decide)
  exact h

/-! ### C8 — malformed frames are dropped without corrupting state -/

/-- C8: a frame whose every occurring marker is followed by fewer bytes
than its format needs (in particular a frame with no recognized marker at
all) decodes nothing — the stored packet and the decode trail are left
unchanged, no error is raised (the model is a total function) — and a
well-formed frame fed afterwards still decodes correctly. -/
theorem feed_malformed_frame (st : RState) (B m ws fb extra : List ℕ)
    (hb : st.buffer = [])
    (hBterm : findSub TERM B = none)
    (hbad : frameUndecodable B = true)
    (hm : m ∈ HEADINGS)
    (hws : ws.length = nFloats m) (hfb : fb.length = nBools m)
    (hw : ∀ u ∈ ws, u < 4294967296)
    (hterm : findSub TERM (m ++ (encodeWords ws ++ (fb ++ extra))) = none)
    (hothers : ∀ h ∈ HEADINGS, h ≠ m →
      containsSub h (m ++ (encodeWords ws ++ (fb ++ extra))) = false) :
    data_received st (B ++ TERM) = ⟨[], st.lastPacket, st.decoded⟩ ∧
    data_received (data_received st (B ++ TERM))
        (m ++ (encodeWords ws ++ (fb ++ extra)) ++ TERM)
      = ⟨[], some ⟨m, ws, fb.map (0 < ·)⟩,
          st.decoded ++ [⟨m, ws, fb.map (0 < ·)⟩]⟩ := by
  have h1 : data_received st (B ++ TERM) = ⟨[], st.lastPacket, st.decoded⟩ := by
    rw [data_received_one_frame st B hb hBterm,
      procFrame_skip st B (frameUndecodable_spec hbad)]
  refine ⟨h1, ?_⟩
  rw [h1]
  exact feed_good_frame_aux _ m ws fb extra rfl hm hws hfb hw hterm hothers

/-- C8 witness: an `lc:` frame with a two-byte payload (33 expected) is
dropped, then a well-formed `hmd:` frame decodes. -/
theorem feed_malformed_frame_witness :
    data_received initR (lcM ++ [1, 2] ++ TERM)
      = ⟨[], none, []⟩ ∧
    data_received (data_received initR (lcM ++ [1, 2] ++ TERM))
        (hmdM ++ (encodeWords [5, 6, 7, 8] ++ ([] ++ [])) ++ TERM)
      = ⟨[], some ⟨hmdM, [5, 6, 7, 8], []⟩, [⟨hmdM, [5, 6, 7, 8], []⟩]⟩ := by
  have h := feed_malformed_frame initR (lcM ++ [1, 2]) hmdM [5, 6, 7, 8] [] []
    rfl (by decide) (by decide) (by decide) (by decide) (by decide)
    (by decide) (by decide) (by decide)
  exact h

/-! ### C10 — a single shared last-packet slot -/

/-- C10: the reader keeps one `_last_packet` slot for all three headers:
after a valid `hmd:` frame followed by a valid `lc:` frame, the stored
packet is the `lc:` one (the decode trail shows the `hmd:` packet was
decoded and then overwritten), and the exposed last-read header is `lc:`,
not `hmd:`. -/
theorem single_packet_slot (st : RState) (ws1 ws2 fb2 : List ℕ)
    (hb : st.buffer = [])
    (hws1 : ws1.length = 4) (hw1 : ∀ u ∈ ws1, u < 4294967296)
    (hterm1 : findSub TERM (hmdM ++ (encodeWords ws1 ++ ([] ++ []))) = none)
    (hothers1 : ∀ h ∈ HEADINGS, h ≠ hmdM →
      containsSub h (hmdM ++ (encodeWords ws1 ++ ([] ++ []))) = false)
    (hws2 : ws2.length = 7) (hfb2 : fb2.length = 5)
    (hw2 : ∀ u ∈ ws2, u < 4294967296)
    (hterm2 : findSub TERM (lcM ++ (encodeWords ws2 ++ (fb2 ++ []))) = none)
    (hothers2 : ∀ h ∈ HEADINGS, h ≠ lcM →
      containsSub h (lcM ++ (encodeWords ws2 ++ (fb2 ++ []))) = false) :
    data_received
        (data_received st (hmdM ++ (encodeWords ws1 ++ ([] ++ [])) ++ TERM))
        (lcM ++ (encodeWords ws2 ++ (fb2 ++ [])) ++ TERM)
      = ⟨[], some ⟨lcM, ws2, fb2.map (0 < ·)⟩,
          st.decoded ++ [⟨hmdM, ws1, []⟩, ⟨lcM, ws2, fb2.map (0 < ·)⟩]⟩ ∧
    Option.map Packet.header
        (data_received
          (data_received st
            (hmdM ++ (encodeWords ws1 ++ ([] ++ [])) ++ TERM))
          (lcM ++ (encodeWords ws2 ++ (fb2 ++ [])) ++ TERM)).lastPacket
      = some lcM ∧
    lcM ≠ hmdM := by
  have hnf1 : ws1.length = nFloats hmdM := by simpa [nFloats] using hws1
  have hnb1 : ([] : List ℕ).length = nBools hmdM := by simp [nBools]
  have h1 := feed_good_frame_aux st hmdM ws1 [] [] hb (by simp [HEADINGS])
    hnf1 hnb1 hw1 hterm1 hothers1
  rw [h1]
  have hnf2 : ws2.length = nFloats lcM := by simpa [nFloats, lcM, hmdM] using hws2
  have hnb2 : fb2.length = nBools lcM := by simpa [nBools, lcM, hmdM] using hfb2
  have h2 := feed_good_frame_aux
    ⟨[], some ⟨hmdM, ws1, ([] : List ℕ).map (0 < ·)⟩,
      st.decoded ++ [⟨hmdM, ws1, ([] : List ℕ).map (0 < ·)⟩]⟩
    lcM ws2 fb2 [] rfl (by simp [HEADINGS]) hnf2 hnb2 hw2 hterm2 hothers2
  rw [h2]
  refine ⟨?_, rfl, by decide⟩
  simp

/-- C10 witness: concrete `hmd:` then `lc:` frames. -/
theorem single_packet_slot_witness :
    data_received
        (data_received initR
          (hmdM ++ (encodeWords [1, 1, 1, 1] ++ ([] ++ [])) ++ TERM))
        (lcM ++ (encodeWords [2, 2, 2, 2, 2, 2, 2] ++ ([0, 1, 0, 1, 0] ++ []))
          ++ TERM)
      = ⟨[], some ⟨lcM, [2, 2, 2, 2, 2, 2, 2],
            [false, true, false, true, false]⟩,
          [⟨hmdM, [1, 1, 1, 1], []⟩,
           ⟨lcM, [2, 2, 2, 2, 2, 2, 2],
            [false, true, false, true, false]⟩]⟩ := by
  have h := single_packet_slot initR [1, 1, 1, 1] [2, 2, 2, 2, 2, 2, 2]
    [0, 1, 0, 1, 0] rfl (by decide) (by decide) (by decide) (by decide)
    (by decide) (by decide) (by decide) (by decide) (by decide)
  exact h.1

end HoboVR
